import Mathlib

/-!
Verification of the text-chunking engine specified for this repository: a
recursive, separator-cascade text splitter with a greedy overlap-preserving
chunk merger and a thin document wrapper. The corpus only shows callers of
this engine (`RecursiveCharacterTextSplitter.splitDocuments`,
`createDocuments`), so the engine itself is modelled from the specification
and the claims are settled against that model. Texts are lists of
characters and the length function is the default character count.
-/

namespace TS

/-- Modelled from the spec: a text is an ordered sequence of characters; the
default `lengthFunction` is the character count (`List.length`). -/
abbrev Text := List Char

/-- Modelled from the spec: joining pieces with a separator reinserted between
consecutive pieces (merger step 2: "join its pieces with the separator used
to produce them"). -/
def joinSep (sep : Text) : List Text → Text
  | [] => []
  | [p] => p
  | p :: ps => p ++ sep ++ joinSep sep ps

/-- Modelled from the spec: a window's total length is the sum of the piece
lengths plus the separators reinserted between them (merger step 1), i.e. the
length of the joined text. -/
def totalLen (sep : Text) (l : List Text) : Nat :=
  (joinSep sep l).length

/-- Modelled from the spec: splitting on a literal separator, fuel-driven
scan of the text. One character is consumed per step, so `fuel` at least the
text length makes the fuel bound unreachable; the fuel-exhausted fallback is
chosen so that rejoining always restores the input. Missing from the corpus:
the splitter's literal split routine. -/
def splitOnFuel (sep : Text) : Nat → Text → Text → List Text
  | 0, acc, rest => [acc.reverse ++ rest]
  | fuel + 1, acc, text =>
    match text with
    | [] => [acc.reverse]
    | c :: rest =>
      if sep <+: (c :: rest) then
        acc.reverse :: splitOnFuel sep fuel [] (List.drop sep.length (c :: rest))
      else
        splitOnFuel sep fuel (c :: acc) rest

/-- Modelled from the spec: split a text on a separator; the empty separator
means "split at every character boundary" (§4.1 generic fallback). -/
def splitOnSep (sep : Text) (t : Text) : List Text :=
  if sep = [] then t.map (fun c => [c]) else splitOnFuel sep (t.length + 1) [] t

/-- Modelled from the spec (§4.2 step 3, `keepSeparator = true`): the
separator is reattached to the piece that precedes it, so no input
characters are lost. -/
def attachSep (sep : Text) : List Text → List Text
  | [] => []
  | [p] => [p]
  | p :: ps => (p ++ sep) :: attachSep sep ps

/-- Modelled from the spec (§4.2 step 3): raw pieces of one split level;
separators are discarded when `keep` is `false` and reattached to the
preceding piece when `keep` is `true`. -/
def splitPieces (sep : Text) (keep : Bool) (t : Text) : List Text :=
  if keep then attachSep sep (splitOnSep sep t) else splitOnSep sep t

/-- Modelled from the spec (§4.1): the Separator Resolver's generic default
ordered list — paragraph break, line break, space, then the empty string. -/
def defaultSeparators : List Text :=
  ["\n\n".toList, "\n".toList, " ".toList, "".toList]

/-- Modelled from the spec (§4.2 step 1): the separator list is
`config.separators`, or the Resolver's generic default when that is empty. -/
def resolveSeparators (seps : List Text) : List Text :=
  if seps = [] then defaultSeparators else seps

/-- Modelled from the spec (§4.2 step 2): scan the separators in order and
return the first whose application splits the text into more than one piece,
together with the remaining list after it; if none is present the final
entry is used. -/
def chooseSep : List Text → Text → Text × List Text
  | [], _ => ([], [])
  | [s], _ => (s, [])
  | s :: s' :: ss, t =>
    if 1 < (splitOnSep s t).length then (s, s' :: ss) else chooseSep (s' :: ss) t

/-- Modelled from the spec (§4.2): the Recursive Splitter. Separators are
scanned in order; the first that yields more than one piece (otherwise the
final entry) splits the text; pieces within `cs` are emitted as-is, an
oversized piece recurses with the remaining separator list, and when that
list is exhausted the oversized piece is accepted unmodified. Empty input
text returns an empty list. -/
def splitText (cs : Nat) (keep : Bool) : List Text → Text → List Text
  | [], t => if t = [] then [] else splitPieces [] keep t
  | s :: rest, t =>
    if t = [] then []
    else if 1 < (splitOnSep s t).length ∨ rest = [] then
      (splitPieces s keep t).flatMap (fun p =>
        if p.length ≤ cs then [p]
        else if rest = [] then [p]
        else splitText cs keep rest p)
    else splitText cs keep rest t

/-- Modelled from the spec (§8 Termination): the Recursive Splitter with an
explicit recursion budget; `none` means the budget was exhausted. Used to
state that the recursion depth is bounded by the separator-list length. -/
def splitTextFuel (cs : Nat) (keep : Bool) : Nat → List Text → Text → Option (List Text)
  | 0, _, _ => none
  | fuel + 1, seps, t =>
    match seps with
    | [] => some (if t = [] then [] else splitPieces [] keep t)
    | s :: rest =>
      if t = [] then some []
      else if 1 < (splitOnSep s t).length ∨ rest = [] then
        (splitPieces s keep t).foldr (fun p acc =>
          match acc with
          | none => none
          | some tail =>
            if p.length ≤ cs then some (p :: tail)
            else if rest = [] then some (p :: tail)
            else
              match splitTextFuel cs keep fuel rest p with
              | none => none
              | some sub => some (sub ++ tail)) (some [])
      else splitTextFuel cs keep fuel rest t

/-- Modelled from the spec (§3, §4.3): one output chunk, kept as the ordered
pieces of its window. `seed` is the overlap suffix carried over from the
previously flushed window (merger step 3) and `body` holds the pieces added
afterwards; the chunk's text is the join of `seed ++ body`. -/
structure TextChunk where
  seed : List Text
  body : List Text
deriving DecidableEq

/-- Modelled from the spec: all pieces of a chunk's window, in order. -/
def TextChunk.pieces (c : TextChunk) : List Text :=
  c.seed ++ c.body

/-- Modelled from the spec: a chunk's content is its pieces joined with the
reinserted separator. -/
def TextChunk.content (sep : Text) (c : TextChunk) : Text :=
  joinSep sep (c.seed ++ c.body)

/-- Modelled from the spec (§4.3 step 3): the longest suffix of the flushed
window's pieces whose total length does not exceed `ov`. -/
def maxOverlapSuffix (sep : Text) (ov : Nat) : List Text → List Text
  | [] => []
  | p :: rest =>
    if totalLen sep (p :: rest) ≤ ov then p :: rest else maxOverlapSuffix sep ov rest

/-- Modelled from the spec (§4.3 step 3): the seed of a new window — the
longest suffix of the just-flushed window's pieces of total length at most
`ov`; when `chunkOverlap` is 0 the new window starts empty. -/
def seedWindow (sep : Text) (ov : Nat) (l : List Text) : List Text :=
  if ov = 0 then [] else maxOverlapSuffix sep ov l

/-- Modelled from the spec (§4.3 steps 1-5): the greedy pack-with-overlap
merge loop. A piece alone larger than `cs` is flushed as its own chunk and
the window resets empty (step 4); otherwise, if adding the piece would push
a non-empty window past `cs`, the window is flushed and the new window is
seeded with the overlap suffix before the piece is appended (steps 2-3);
the final non-empty window is flushed at the end (step 5). -/
def mergeAux (sep : Text) (cs ov : Nat) : TextChunk → List Text → List TextChunk
  | w, [] => if w.seed ++ w.body = [] then [] else [w]
  | w, p :: ps =>
    if cs < p.length then
      (if w.seed ++ w.body = [] then [] else [w]) ++
        ⟨[], [p]⟩ :: mergeAux sep cs ov ⟨[], []⟩ ps
    else if w.seed ++ w.body ≠ [] ∧ cs < totalLen sep (w.seed ++ w.body ++ [p]) then
      w :: mergeAux sep cs ov ⟨seedWindow sep ov (w.seed ++ w.body), [p]⟩ ps
    else
      mergeAux sep cs ov ⟨w.seed, w.body ++ [p]⟩ ps

/-- Modelled from the spec (§4.3): the Chunk Merger; degenerate chunks whose
joined content is empty are dropped from the output (step 6). Missing from
the corpus: the merge routine of the splitter library. -/
def mergeIntoChunks (sep : Text) (cs ov : Nat) (pieces : List Text) : List TextChunk :=
  (mergeAux sep cs ov ⟨[], []⟩ pieces).filter (fun c => !(TextChunk.content sep c).isEmpty)

/-- Modelled from the spec (§4.3 step 1): the separator the merger reinserts
between consecutive pieces — the separator chosen at the top level, unless
`keepSeparator` already embedded it in the pieces. -/
def mergeSep (seps : List Text) (keep : Bool) (t : Text) : Text :=
  if keep then [] else (chooseSep (resolveSeparators seps) t).1

/-- Modelled from the spec (§2 control flow): Resolver, then Recursive
Splitter, then Chunk Merger. -/
def pipeline (seps : List Text) (cs ov : Nat) (keep : Bool) (t : Text) : List TextChunk :=
  mergeIntoChunks (mergeSep seps keep t) cs ov (splitText cs keep (resolveSeparators seps) t)

/-- Modelled from the spec: the contents of the pipeline's output chunks. -/
def pipelineContents (seps : List Text) (cs ov : Nat) (keep : Bool) (t : Text) : List Text :=
  (pipeline seps cs ov keep t).map (TextChunk.content (mergeSep seps keep t))

/-- Modelled from the spec (§3): the immutable split configuration; sizes are
integers so that out-of-range values can be rejected. -/
structure SplitConfig where
  chunkSize : Int
  chunkOverlap : Int
  separators : List Text
  keepSeparator : Bool

/-- Modelled from the spec (§7): the error surface of the splitter. -/
inductive SplitError where
  | invalidConfig
deriving DecidableEq

/-- Modelled from the spec (§7): the checked entry point. `InvalidConfig` is
raised exactly when `chunkOverlap >= chunkSize` or `chunkSize <= 0`, before
any text is processed; otherwise the pipeline runs. -/
def splitWithConfig (cfg : SplitConfig) (t : Text) : Except SplitError (List TextChunk) :=
  if cfg.chunkSize ≤ 0 ∨ cfg.chunkOverlap ≥ cfg.chunkSize then
    .error .invalidConfig
  else
    .ok (pipeline cfg.separators cfg.chunkSize.toNat cfg.chunkOverlap.toNat cfg.keepSeparator t)

/-- Modelled from the spec (§3): document metadata, a mapping of string keys
to values. -/
abbrev Metadata := List (String × String)

/-- Modelled from the spec (§3): a document record; `metaRef` is the index of
the record's metadata object in an explicit store, so that sharing and
copying of metadata can be observed. -/
structure DocumentRecord where
  pageContent : Text
  metaRef : Nat
deriving DecidableEq

/-- Modelled from the spec (§4.4): wrap each chunk content as a new record
whose metadata is a fresh copy of `meta`, appended to the store; each record
points at its own freshly allocated copy. Missing from the corpus: the
document-wrapping step of `splitDocuments`. -/
def allocChunks (meta : Metadata) : List Text → List Metadata → List Metadata × List DocumentRecord
  | [], st => (st, [])
  | c :: cs, st =>
    let r : DocumentRecord := ⟨c, st.length⟩
    let (st', rs) := allocChunks meta cs (st ++ [meta])
    (st', r :: rs)

/-- Modelled from the spec (§4.4): split every document's `pageContent`
through the pipeline and wrap each chunk with a shallow copy of the source
document's metadata. -/
def splitDocuments (seps : List Text) (cs ov : Nat) (keep : Bool) :
    List DocumentRecord → List Metadata → List Metadata × List DocumentRecord
  | [], st => (st, [])
  | d :: ds, st =>
    let (st1, rs1) :=
      allocChunks (st.getD d.metaRef []) (pipelineContents seps cs ov keep d.pageContent) st
    let (st2, rs2) := splitDocuments seps cs ov keep ds st1
    (st2, rs1 ++ rs2)

/-- Modelled from the spec: `createDocuments` as used in the corpus snippets
takes raw texts, splits each through the pipeline and wraps each chunk as a
document with freshly allocated empty metadata. Missing from the corpus: the
body of `createDocuments`. -/
def createDocuments (seps : List Text) (cs ov : Nat) (keep : Bool) :
    List Text → List Metadata → List Metadata × List DocumentRecord
  | [], st => (st, [])
  | t :: ts, st =>
    let (st1, rs1) := allocChunks [] (pipelineContents seps cs ov keep t) st
    let (st2, rs2) := createDocuments seps cs ov keep ts st1
    (st2, rs1 ++ rs2)

/-- Modelled from the spec: wrapping raw texts as documents with empty
metadata, one freshly allocated metadata object per text. -/
def wrapTexts : List Text → List Metadata → List Metadata × List DocumentRecord
  | [], st => (st, [])
  | t :: ts, st =>
    let d : DocumentRecord := ⟨t, st.length⟩
    let (st', ds) := wrapTexts ts (st ++ [([] : Metadata)])
    (st', d :: ds)

/-! Basic facts about joining and splitting. -/

lemma joinSep_two (sep p : Text) (ps : List Text) (h : ps ≠ []) :
    joinSep sep (p :: ps) = p ++ sep ++ joinSep sep ps := by
  cases ps with
  | nil => exact absurd rfl h
  | cons a l => rfl

lemma joinSep_sep_nil (l : List Text) : joinSep [] l = l.flatten := by
  induction l with
  | nil => rfl
  | cons p ps ih =>
    cases ps with
    | nil => simp [joinSep]
    | cons a l' => simp [joinSep_two, ih]

lemma joinSep_append (sep : Text) (a b : List Text) (ha : a ≠ []) (hb : b ≠ []) :
    joinSep sep (a ++ b) = joinSep sep a ++ sep ++ joinSep sep b := by
  induction a with
  | nil => exact absurd rfl ha
  | cons p ps ih =>
    cases ps with
    | nil =>
      simp only [List.cons_append, List.nil_append]
      rw [joinSep_two sep p b hb]
      simp [joinSep]
    | cons q qs =>
      have h1 : joinSep sep (p :: ((q :: qs) ++ b)) = p ++ sep ++ joinSep sep ((q :: qs) ++ b) :=
        joinSep_two sep p ((q :: qs) ++ b) (by simp)
      have h2 := ih (by simp)
      simp only [List.cons_append] at h1 h2 ⊢
      rw [h1, h2, joinSep_two sep p (q :: qs) (by simp)]
      simp [List.append_assoc]

lemma pre_joinSep (sep : Text) (s b : List Text) :
    joinSep sep s <+: joinSep sep (s ++ b) := by
  rcases eq_or_ne s [] with rfl | hs
  · exact ⟨joinSep sep b, by simp [joinSep]⟩
  rcases eq_or_ne b [] with rfl | hb
  · simp
  rw [joinSep_append sep s b hs hb]
  exact ⟨sep ++ joinSep sep b, by simp⟩

lemma suf_joinSep (sep : Text) (a s : List Text) :
    joinSep sep s <:+ joinSep sep (a ++ s) := by
  rcases eq_or_ne a [] with rfl | ha
  · simp
  rcases eq_or_ne s [] with rfl | hs
  · exact ⟨joinSep sep a, by simp [joinSep]⟩
  rw [joinSep_append sep a s ha hs]
  exact ⟨joinSep sep a ++ sep, by simp⟩

lemma suf_joinSep_of_suf (sep : Text) {s l : List Text} (h : s <:+ l) :
    joinSep sep s <:+ joinSep sep l := by
  obtain ⟨a, rfl⟩ := h
  exact suf_joinSep sep a s

lemma totalLen_le_append (sep : Text) (a b : List Text) :
    totalLen sep a ≤ totalLen sep (a ++ b) :=
  (pre_joinSep sep a b).length_le

lemma mem_length_le_totalLen (sep : Text) {p : Text} {l : List Text} (h : p ∈ l) :
    p.length ≤ totalLen sep l := by
  induction l with
  | nil => cases h
  | cons q qs ih =>
    rcases List.mem_cons.mp h with rfl | hmem
    · cases qs with
      | nil => simp [totalLen, joinSep]
      | cons a l' =>
        rw [totalLen, joinSep_two sep p (a :: l') (by simp)]
        simp
    · cases qs with
      | nil => cases hmem
      | cons a l' =>
        rw [totalLen, joinSep_two sep q (a :: l') (by simp)]
        have := ih hmem
        rw [totalLen] at this
        simp only [List.length_append]
        omega

lemma splitOnFuel_ne_nil (sep : Text) (fuel : Nat) (acc t : Text) :
    splitOnFuel sep fuel acc t ≠ [] := by
  induction fuel generalizing acc t with
  | zero => simp [splitOnFuel]
  | succ n ih =>
    cases t with
    | nil => simp [splitOnFuel]
    | cons c rest =>
      rw [splitOnFuel]
      split
      · simp
      · exact ih (c :: acc) rest

lemma joinSep_splitOnFuel (sep : Text) (fuel : Nat) (acc t : Text) :
    joinSep sep (splitOnFuel sep fuel acc t) = acc.reverse ++ t := by
  induction fuel generalizing acc t with
  | zero => simp [splitOnFuel, joinSep]
  | succ n ih =>
    cases t with
    | nil => simp [splitOnFuel, joinSep]
    | cons c rest =>
      rw [splitOnFuel]
      split
      · next hpre =>
        rw [joinSep_two sep _ _ (splitOnFuel_ne_nil sep n [] _), ih]
        obtain ⟨tl, htl⟩ := hpre
        rw [← htl, List.drop_left]
        simp
      · next hpre =>
        rw [ih]
        simp

lemma joinSep_splitOnSep (sep t : Text) : joinSep sep (splitOnSep sep t) = t := by
  rw [splitOnSep]
  split
  · next h =>
    subst h
    rw [joinSep_sep_nil]
    induction t with
    | nil => rfl
    | cons c cs ih => simp [ih]
  · rw [joinSep_splitOnFuel]
    simp

lemma splitOnSep_ne_nil_of_ne (sep t : Text) (ht : t ≠ []) : splitOnSep sep t ≠ [] := by
  rw [splitOnSep]
  split
  · simpa using ht
  · exact splitOnFuel_ne_nil sep _ [] t

lemma flatten_attachSep (sep : Text) (l : List Text) :
    (attachSep sep l).flatten = joinSep sep l := by
  induction l with
  | nil => rfl
  | cons p ps ih =>
    cases ps with
    | nil => simp [attachSep, joinSep]
    | cons q qs =>
      rw [attachSep, joinSep_two sep p (q :: qs) (by simp)]
      simp only [List.flatten_cons, ih]
      simp [List.append_assoc]

lemma attachSep_ne_nil (sep : Text) (l : List Text) (h : l ≠ []) : attachSep sep l ≠ [] := by
  cases l with
  | nil => exact absurd rfl h
  | cons p ps => cases ps <;> simp [attachSep]

lemma mem_attachSep_length (sep : Text) {q : Text} {l : List Text} (h : q ∈ attachSep sep l) :
    q.length ≤ totalLen sep l := by
  induction l with
  | nil => cases h
  | cons p ps ih =>
    cases ps with
    | nil =>
      simp only [attachSep, List.mem_singleton] at h
      subst h
      simp [totalLen, joinSep]
    | cons a l' =>
      have hunf : attachSep sep (p :: a :: l') = (p ++ sep) :: attachSep sep (a :: l') := rfl
      rw [hunf] at h
      rcases List.mem_cons.mp h with rfl | hmem
      · rw [totalLen, joinSep_two sep p (a :: l') (List.cons_ne_nil a l')]
        simp
      · have := ih hmem
        rw [totalLen, joinSep_two sep p (a :: l') (List.cons_ne_nil a l')]
        rw [totalLen] at this
        simp only [List.length_append]
        omega

lemma mem_splitPieces_length (sep : Text) (keep : Bool) {p t : Text}
    (h : p ∈ splitPieces sep keep t) : p.length ≤ t.length := by
  rw [splitPieces] at h
  have hj := joinSep_splitOnSep sep t
  split at h
  · have := mem_attachSep_length sep h
    rw [totalLen, hj] at this
    exact this
  · have := mem_length_le_totalLen sep h
    rw [totalLen, hj] at this
    exact this

lemma splitPieces_ne_nil (sep : Text) (keep : Bool) (t : Text) (ht : t ≠ []) :
    splitPieces sep keep t ≠ [] := by
  rw [splitPieces]
  split
  · exact attachSep_ne_nil sep _ (splitOnSep_ne_nil_of_ne sep t ht)
  · exact splitOnSep_ne_nil_of_ne sep t ht

lemma flatten_splitPieces_keep (sep t : Text) : (splitPieces sep true t).flatten = t := by
  rw [splitPieces, if_pos rfl, flatten_attachSep, joinSep_splitOnSep]

lemma totalLen_splitPieces_keep (t sep : Text) : totalLen [] (splitPieces sep true t) = t.length := by
  rw [totalLen, joinSep_sep_nil, flatten_splitPieces_keep]

lemma totalLen_splitPieces_drop (t sep : Text) :
    totalLen sep (splitPieces sep false t) = t.length := by
  rw [totalLen, splitPieces]
  simp only [Bool.false_eq_true, if_false]
  rw [joinSep_splitOnSep]

/-! Facts about separator selection and the Recursive Splitter. -/

lemma resolveSeparators_ne_nil (seps : List Text) : resolveSeparators seps ≠ [] := by
  rw [resolveSeparators]
  split
  · simp [defaultSeparators]
  · assumption

lemma splitText_nil_text (cs : Nat) (keep : Bool) (seps : List Text) :
    splitText cs keep seps [] = [] := by
  cases seps <;> simp [splitText]

lemma chooseSep_char (t : Text) :
    ∀ seps : List Text, seps ≠ [] →
      ∃ pre, seps = pre ++ (chooseSep seps t).1 :: (chooseSep seps t).2
        ∧ (∀ s ∈ pre, ¬ 1 < (splitOnSep s t).length)
        ∧ (1 < (splitOnSep (chooseSep seps t).1 t).length ∨ (chooseSep seps t).2 = []) := by
  intro seps
  induction seps with
  | nil => intro h; exact absurd rfl h
  | cons s rest ih =>
    intro _
    cases rest with
    | nil =>
      refine ⟨[], by simp [chooseSep], by simp, Or.inr ?_⟩
      simp [chooseSep]
    | cons s' ss =>
      by_cases h1 : 1 < (splitOnSep s t).length
      · refine ⟨[], ?_, by simp, Or.inl ?_⟩
        · simp [chooseSep, if_pos h1]
        · simp [chooseSep, if_pos h1]
          exact h1
      · have hred : chooseSep (s :: s' :: ss) t = chooseSep (s' :: ss) t := by
          simp [chooseSep, if_neg h1]
        obtain ⟨pre, heq, hall, hlast⟩ := ih (by simp)
        refine ⟨s :: pre, ?_, ?_, ?_⟩
        · rw [hred, List.cons_append, ← heq]
        · intro x hx
          rcases List.mem_cons.mp hx with rfl | hx'
          · exact h1
          · exact hall x hx'
        · rw [hred]
          exact hlast

lemma splitText_level (cs : Nat) (keep : Bool) (t : Text) (ht : t ≠ []) :
    ∀ seps : List Text, seps ≠ [] →
      splitText cs keep seps t =
        (splitPieces (chooseSep seps t).1 keep t).flatMap (fun p =>
          if p.length ≤ cs then [p]
          else if (chooseSep seps t).2 = [] then [p]
          else splitText cs keep (chooseSep seps t).2 p) := by
  intro seps
  induction seps with
  | nil => intro h; exact absurd rfl h
  | cons s rest ih =>
    intro _
    cases rest with
    | nil =>
      rw [splitText, if_neg ht, if_pos (Or.inr rfl)]
      rfl
    | cons s' ss =>
      by_cases h1 : 1 < (splitOnSep s t).length
      · have hch : chooseSep (s :: s' :: ss) t = (s, s' :: ss) := by
          simp [chooseSep, if_pos h1]
        rw [splitText, if_neg ht, if_pos (Or.inl h1), hch]
      · have hch : chooseSep (s :: s' :: ss) t = chooseSep (s' :: ss) t := by
          simp [chooseSep, if_neg h1]
        have hcond : ¬ (1 < (splitOnSep s t).length ∨ (s' :: ss : List Text) = []) := by
          simp [h1]
        rw [splitText, if_neg ht, if_neg hcond, hch]
        exact ih (by simp)

lemma flatMap_emit_of_small (cs : Nat) (g : Text → List Text) (l : List Text)
    (h : ∀ p ∈ l, p.length ≤ cs) :
    (l.flatMap (fun p => if p.length ≤ cs then [p] else g p)) = l := by
  induction l with
  | nil => rfl
  | cons p ps ih =>
    rw [List.flatMap_cons, if_pos (h p (List.mem_cons_self p ps)),
      ih (fun q hq => h q (List.mem_cons_of_mem p hq))]
    rfl

lemma flatten_flatMap_eq (f : Text → List Text) (l : List Text)
    (h : ∀ p ∈ l, (f p).flatten = p) :
    (l.flatMap f).flatten = l.flatten := by
  induction l with
  | nil => rfl
  | cons p ps ih =>
    rw [List.flatMap_cons, List.flatten_append, h p (List.mem_cons_self p ps),
      ih (fun q hq => h q (List.mem_cons_of_mem p hq)), List.flatten_cons]

lemma flatten_splitText_keep (cs : Nat) :
    ∀ (seps : List Text) (t : Text), (splitText cs true seps t).flatten = t := by
  intro seps
  induction seps with
  | nil =>
    intro t
    by_cases ht : t = []
    · subst ht; simp [splitText]
    · rw [splitText, if_neg ht, flatten_splitPieces_keep]
  | cons s rest ih =>
    intro t
    by_cases ht : t = []
    · subst ht; simp [splitText]
    by_cases hcond : 1 < (splitOnSep s t).length ∨ rest = []
    · rw [splitText, if_neg ht, if_pos hcond]
      rw [flatten_flatMap_eq _ _ ?_, flatten_splitPieces_keep]
      intro p _
      by_cases hp : p.length ≤ cs
      · simp [hp]
      · rw [if_neg hp]
        by_cases hr : rest = []
        · simp [hr]
        · rw [if_neg hr]
          exact ih p
    · rw [splitText, if_neg ht, if_neg hcond]
      exact ih t

lemma splitTextFuel_eq_splitText (cs : Nat) (keep : Bool) :
    ∀ (fuel : Nat) (seps : List Text) (t : Text), seps.length < fuel →
      splitTextFuel cs keep fuel seps t = some (splitText cs keep seps t) := by
  intro fuel
  induction fuel with
  | zero => intro seps t h; exact absurd h (by omega)
  | succ n ih =>
    intro seps t hlen
    cases seps with
    | nil => rfl
    | cons s rest =>
      by_cases ht : t = []
      · subst ht
        simp [splitTextFuel, splitText]
      by_cases hcond : 1 < (splitOnSep s t).length ∨ rest = []
      · rw [splitTextFuel, splitText]
        simp only [if_neg ht, if_pos hcond]
        have hrec : ∀ p : Text, splitTextFuel cs keep n rest p = some (splitText cs keep rest p) := by
          intro p
          apply ih
          simp only [List.length_cons] at hlen
          omega
        induction splitPieces s keep t with
        | nil => rfl
        | cons p l ihl =>
          rw [List.foldr_cons, ihl, List.flatMap_cons]
          by_cases hp : p.length ≤ cs
          · simp [hp]
          · rw [if_neg hp]
            by_cases hr : rest = []
            · simp [hp, hr]
            · simp only [hp, if_false, if_neg hr, hrec p]
      · rw [splitTextFuel, splitText]
        simp only [if_neg ht, if_neg hcond]
        apply ih
        simp only [List.length_cons] at hlen
        omega

/-! Facts about the overlap seed and the merge loop. -/

lemma totalLen_nil (sep : Text) : totalLen sep [] = 0 := rfl

lemma maxOverlapSuffix_total_le (sep : Text) (ov : Nat) :
    ∀ l : List Text, totalLen sep (maxOverlapSuffix sep ov l) ≤ ov := by
  intro l
  induction l with
  | nil => simp [maxOverlapSuffix, totalLen_nil]
  | cons p rest ih =>
    rw [maxOverlapSuffix]
    split
    · assumption
    · exact ih

lemma maxOverlapSuffix_suf (sep : Text) (ov : Nat) :
    ∀ l : List Text, maxOverlapSuffix sep ov l <:+ l := by
  intro l
  induction l with
  | nil => simp [maxOverlapSuffix]
  | cons p rest ih =>
    rw [maxOverlapSuffix]
    split
    · exact List.suffix_rfl
    · exact ih.trans (List.suffix_cons p rest)

lemma suf_maxOverlapSuffix (sep : Text) (ov : Nat) :
    ∀ (l s : List Text), s <:+ l → totalLen sep s ≤ ov → s <:+ maxOverlapSuffix sep ov l := by
  intro l
  induction l with
  | nil =>
    intro s hs _
    rw [List.suffix_nil.mp hs]
    simp [maxOverlapSuffix]
  | cons p rest ih =>
    intro s hs hle
    rcases List.suffix_cons_iff.mp hs with rfl | hs'
    · rw [maxOverlapSuffix, if_pos hle]
    · rw [maxOverlapSuffix]
      split
      · exact hs'.trans (List.suffix_cons p rest)
      · exact ih s hs' hle

lemma seedWindow_total_le (sep : Text) (ov : Nat) (l : List Text) :
    totalLen sep (seedWindow sep ov l) ≤ ov := by
  rw [seedWindow]
  split
  · simp [totalLen_nil]
  · exact maxOverlapSuffix_total_le sep ov l

lemma seedWindow_suf (sep : Text) (ov : Nat) (l : List Text) :
    seedWindow sep ov l <:+ l := by
  rw [seedWindow]
  split
  · exact List.nil_suffix
  · exact maxOverlapSuffix_suf sep ov l

lemma seedWindow_zero (sep : Text) (l : List Text) : seedWindow sep 0 l = [] := rfl

lemma mergeAux_seed_facts (sep : Text) (cs ov : Nat) :
    ∀ (ps : List Text) (w : TextChunk),
      totalLen sep w.seed ≤ ov → (ov = 0 → w.seed = []) →
      ∀ c ∈ mergeAux sep cs ov w ps,
        totalLen sep c.seed ≤ ov ∧ (ov = 0 → c.seed = []) := by
  intro ps
  induction ps with
  | nil =>
    intro w h1 h2 c hc
    rw [mergeAux] at hc
    split at hc
    · cases hc
    · rw [List.mem_singleton] at hc
      subst hc
      exact ⟨h1, h2⟩
  | cons p ps ih =>
    intro w h1 h2 c hc
    rw [mergeAux] at hc
    split at hc
    · rcases List.mem_append.mp hc with hl | hr
      · split at hl
        · cases hl
        · rw [List.mem_singleton] at hl
          subst hl
          exact ⟨h1, h2⟩
      · rcases List.mem_cons.mp hr with rfl | hrec
        · exact ⟨by simp [totalLen_nil], fun _ => rfl⟩
        · exact ih ⟨[], []⟩ (by simp [totalLen_nil]) (fun _ => rfl) c hrec
    · split at hc
      · rcases List.mem_cons.mp hc with rfl | hrec
        · exact ⟨h1, h2⟩
        · exact ih _ (seedWindow_total_le sep ov _) (fun h0 => by rw [h0, seedWindow_zero]) c hrec
      · exact ih ⟨w.seed, w.body ++ [p]⟩ h1 h2 c hc

lemma mergeAux_chunk_bound (sep : Text) (cs ov : Nat) :
    ∀ (ps : List Text) (w : TextChunk),
      (totalLen sep (w.seed ++ w.body) ≤ cs ∨
        (totalLen sep w.seed ≤ ov ∧ ∃ p, w.body = [p] ∧ p.length ≤ cs)) →
      ∀ c ∈ mergeAux sep cs ov w ps,
        totalLen sep (c.seed ++ c.body) ≤ cs
        ∨ (∃ p, c.seed = [] ∧ c.body = [p] ∧ cs < p.length ∧ p ∈ ps)
        ∨ (totalLen sep c.seed ≤ ov ∧ ∃ p, c.body = [p] ∧ p.length ≤ cs) := by
  intro ps
  induction ps with
  | nil =>
    intro w hw c hc
    rw [mergeAux] at hc
    split at hc
    · cases hc
    · rw [List.mem_singleton] at hc
      subst hc
      rcases hw with h | h
      · exact Or.inl h
      · exact Or.inr (Or.inr h)
  | cons p ps ih =>
    intro w hw c hc
    rw [mergeAux] at hc
    split at hc
    · next hp =>
      rcases List.mem_append.mp hc with hl | hr
      · split at hl
        · cases hl
        · rw [List.mem_singleton] at hl
          subst hl
          rcases hw with h | h
          · exact Or.inl h
          · exact Or.inr (Or.inr h)
      · rcases List.mem_cons.mp hr with rfl | hrec
        · exact Or.inr (Or.inl ⟨p, rfl, rfl, hp, List.mem_cons_self p ps⟩)
        · rcases ih ⟨[], []⟩ (Or.inl (by simp [totalLen_nil])) c hrec with h | h | h
          · exact Or.inl h
          · obtain ⟨q, hq1, hq2, hq3, hq4⟩ := h
            exact Or.inr (Or.inl ⟨q, hq1, hq2, hq3, List.mem_cons_of_mem p hq4⟩)
          · exact Or.inr (Or.inr h)
    · next hp =>
      split at hc
      · next hflush =>
        rcases List.mem_cons.mp hc with rfl | hrec
        · rcases hw with h | h
          · exact Or.inl h
          · exact Or.inr (Or.inr h)
        · rcases ih ⟨seedWindow sep ov (w.seed ++ w.body), [p]⟩
              (Or.inr ⟨seedWindow_total_le sep ov _, p, rfl, not_lt.mp hp⟩) c hrec with h | h | h
          · exact Or.inl h
          · obtain ⟨q, hq1, hq2, hq3, hq4⟩ := h
            exact Or.inr (Or.inl ⟨q, hq1, hq2, hq3, List.mem_cons_of_mem p hq4⟩)
          · exact Or.inr (Or.inr h)
      · next hflush =>
        have htot : totalLen sep (w.seed ++ (w.body ++ [p])) ≤ cs := by
          by_cases hemp : w.seed ++ w.body = []
          · have hseed : w.seed = [] := (List.append_eq_nil.mp hemp).1
            have hbody : w.body = [] := (List.append_eq_nil.mp hemp).2
            simp only [hseed, hbody, List.nil_append]
            simpa [totalLen, joinSep] using not_lt.mp hp
          · have h2 : ¬ cs < totalLen sep (w.seed ++ w.body ++ [p]) := by
              intro hlt
              exact hflush ⟨hemp, hlt⟩
            have h3 := not_lt.mp h2
            calc totalLen sep (w.seed ++ (w.body ++ [p]))
                = totalLen sep (w.seed ++ w.body ++ [p]) := by rw [List.append_assoc]
              _ ≤ cs := h3
        rcases ih ⟨w.seed, w.body ++ [p]⟩ (Or.inl htot) c hc with h | h | h
        · exact Or.inl h
        · obtain ⟨q, hq1, hq2, hq3, hq4⟩ := h
          exact Or.inr (Or.inl ⟨q, hq1, hq2, hq3, List.mem_cons_of_mem p hq4⟩)
        · exact Or.inr (Or.inr h)

lemma mergeAux_pieces_flat (sep : Text) (cs : Nat) :
    ∀ (ps : List Text) (w : TextChunk),
      (mergeAux sep cs 0 w ps).flatMap TextChunk.pieces = (w.seed ++ w.body) ++ ps := by
  intro ps
  induction ps with
  | nil =>
    intro w
    rw [mergeAux]
    split
    · next h => simp [h]
    · simp [TextChunk.pieces]
  | cons p ps ih =>
    intro w
    rw [mergeAux]
    split
    · next hp =>
      rw [List.flatMap_append, List.flatMap_cons, ih ⟨[], []⟩]
      split
      · next h => simp [h, TextChunk.pieces]
      · simp [TextChunk.pieces]
    · split
      · next hflush =>
        rw [List.flatMap_cons, ih ⟨seedWindow sep 0 (w.seed ++ w.body), [p]⟩, seedWindow_zero]
        simp [TextChunk.pieces]
      · rw [ih ⟨w.seed, w.body ++ [p]⟩]
        simp [List.append_assoc]

lemma mergeAux_no_flush (sep : Text) (cs ov : Nat) :
    ∀ (ps : List Text) (w : TextChunk),
      totalLen sep ((w.seed ++ w.body) ++ ps) ≤ cs →
      mergeAux sep cs ov w ps =
        if w.seed ++ w.body ++ ps = [] then [] else [⟨w.seed, w.body ++ ps⟩] := by
  intro ps
  induction ps with
  | nil =>
    intro w _
    rw [mergeAux]
    simp
  | cons p ps ih =>
    intro w htot
    have hpmem : (p : Text) ∈ (w.seed ++ w.body) ++ p :: ps :=
      List.mem_append.mpr (Or.inr (List.mem_cons_self p ps))
    have hple : p.length ≤ cs := le_trans (mem_length_le_totalLen sep hpmem) htot
    have hgrow : totalLen sep ((w.seed ++ w.body) ++ [p]) ≤ cs := by
      have h1 : ((w.seed ++ w.body) ++ [p]) ++ ps = (w.seed ++ w.body) ++ p :: ps := by
        simp
      have h2 := totalLen_le_append sep ((w.seed ++ w.body) ++ [p]) ps
      rw [h1] at h2
      exact le_trans h2 htot
    rw [mergeAux, if_neg (not_lt.mpr hple)]
    rw [if_neg ?hnot]
    case hnot =>
      rintro ⟨-, hlt⟩
      exact absurd hlt (not_lt.mpr hgrow)
    rw [ih ⟨w.seed, w.body ++ [p]⟩ ?harg]
    case harg =>
      have h1 : (w.seed ++ (w.body ++ [p])) ++ ps = (w.seed ++ w.body) ++ p :: ps := by
        simp
      rw [h1]
      exact htot
    have hc1 : w.seed ++ (w.body ++ [p]) ++ ps = w.seed ++ w.body ++ p :: ps := by
      simp
    rw [hc1]
    have hc2 : w.body ++ [p] ++ ps = w.body ++ p :: ps := by simp
    rw [hc2]

lemma mergeAux_head_seed (sep : Text) (cs ov : Nat) :
    ∀ (ps : List Text) (w : TextChunk) (c : TextChunk),
      (mergeAux sep cs ov w ps).head? = some c → c.seed = w.seed ∨ c.seed = [] := by
  intro ps
  induction ps with
  | nil =>
    intro w c hc
    rw [mergeAux] at hc
    split at hc
    · cases hc
    · rw [List.head?_cons, Option.some_inj] at hc
      subst hc
      exact Or.inl rfl
  | cons p ps ih =>
    intro w c hc
    rw [mergeAux] at hc
    split at hc
    · split at hc
      · rw [List.nil_append, List.head?_cons, Option.some_inj] at hc
        subst hc
        exact Or.inr rfl
      · rw [List.cons_append, List.head?_cons, Option.some_inj] at hc
        subst hc
        exact Or.inl rfl
    · split at hc
      · rw [List.head?_cons, Option.some_inj] at hc
        subst hc
        exact Or.inl rfl
      · rcases ih ⟨w.seed, w.body ++ [p]⟩ c hc with h | h
        · exact Or.inl h
        · exact Or.inr h

lemma mergeAux_chain (sep : Text) (cs ov : Nat) :
    ∀ (ps : List Text) (w : TextChunk),
      List.Chain' (fun c₁ c₂ => joinSep sep c₂.seed <:+ TextChunk.content sep c₁)
        (mergeAux sep cs ov w ps) := by
  intro ps
  induction ps with
  | nil =>
    intro w
    rw [mergeAux]
    split
    · exact List.chain'_nil
    · exact List.chain'_singleton w
  | cons p ps ih =>
    intro w
    rw [mergeAux]
    have hhead : ∀ (w' : TextChunk) (y : TextChunk),
        (mergeAux sep cs ov w' ps).head? = some y → w'.seed = [] →
        joinSep sep y.seed <:+ TextChunk.content sep (⟨[], [p]⟩ : TextChunk) := by
      intro w' y hy hw'
      rcases mergeAux_head_seed sep cs ov ps w' y hy with h | h
      · rw [h, hw', joinSep]
        exact List.nil_suffix
      · rw [h, joinSep]
        exact List.nil_suffix
    split
    · next hp =>
      split
      · next hemp =>
        rw [List.nil_append]
        rw [List.chain'_cons']
        refine ⟨?_, ih ⟨[], []⟩⟩
        intro y hy
        exact hhead ⟨[], []⟩ y (Option.mem_def.mp hy) rfl
      · rw [List.singleton_append]
        rw [List.chain'_cons']
        constructor
        · intro y hy
          rw [Option.mem_def, List.head?_cons, Option.some_inj] at hy
          subst hy
          rw [joinSep]
          exact List.nil_suffix
        · rw [List.chain'_cons']
          refine ⟨?_, ih ⟨[], []⟩⟩
          intro y hy
          exact hhead ⟨[], []⟩ y (Option.mem_def.mp hy) rfl
    · split
      · next hflush =>
        rw [List.chain'_cons']
        refine ⟨?_, ih _⟩
        intro y hy
        rcases mergeAux_head_seed sep cs ov ps _ y (Option.mem_def.mp hy) with h | h
        · rw [h]
          exact suf_joinSep_of_suf sep (seedWindow_suf sep ov (w.seed ++ w.body))
        · rw [h, joinSep]
          exact List.nil_suffix
      · exact ih ⟨w.seed, w.body ++ [p]⟩

lemma chain'_filter_aux {α : Type} (R : α → α → Prop) (q : α → Bool)
    (htr : ∀ a b, R a b → q a = false → ∀ x, R x b) :
    ∀ (l : List α) (x : α), List.Chain' R (x :: l) → List.Chain' R (x :: l.filter q) := by
  intro l
  induction l with
  | nil =>
    intro x _
    simp [List.chain'_singleton]
  | cons y l ih =>
    intro x hch
    have hxy : R x y := (List.chain'_cons.mp hch).1
    have hyl : List.Chain' R (y :: l) := (List.chain'_cons.mp hch).2
    cases hq : q y with
    | true =>
      rw [List.filter_cons, if_pos hq]
      rw [List.chain'_cons]
      exact ⟨hxy, ih y hyl⟩
    | false =>
      rw [List.filter_cons, if_neg (by simp [hq])]
      have h2 := ih y hyl
      cases hfl : l.filter q with
      | nil => exact List.chain'_singleton x
      | cons z rest =>
        rw [hfl] at h2
        have hyz : R y z := (List.chain'_cons.mp h2).1
        have hzr : List.Chain' R (z :: rest) := (List.chain'_cons.mp h2).2
        rw [List.chain'_cons]
        exact ⟨htr y z hyz hq x, hzr⟩

lemma chain'_filter_transfer {α : Type} (R : α → α → Prop) (q : α → Bool)
    (htr : ∀ a b, R a b → q a = false → ∀ x, R x b) :
    ∀ l : List α, List.Chain' R l → List.Chain' R (l.filter q) := by
  intro l hch
  cases l with
  | nil => exact List.chain'_nil
  | cons x l =>
    cases hq : q x with
    | true =>
      rw [List.filter_cons, if_pos hq]
      exact chain'_filter_aux R q htr l x hch
    | false =>
      rw [List.filter_cons, if_neg (by simp [hq])]
      have h2 := chain'_filter_aux R q htr l x hch
      exact h2.tail

/-! Facts about the assembled pipeline. -/

lemma flatten_map_filter_eq {α : Type} (g : α → Text) (q : α → Bool) (l : List α)
    (h : ∀ c ∈ l, q c = false → g c = []) :
    ((l.filter q).map g).flatten = (l.map g).flatten := by
  induction l with
  | nil => rfl
  | cons c l ih =>
    have ih' := ih (fun x hx hqx => h x (List.mem_cons_of_mem c hx) hqx)
    cases hq : q c with
    | true =>
      rw [List.filter_cons, if_pos hq, List.map_cons, List.map_cons,
        List.flatten_cons, List.flatten_cons, ih']
    | false =>
      rw [List.filter_cons, if_neg (by simp [hq]), List.map_cons, List.flatten_cons,
        h c (List.mem_cons_self c l) hq, List.nil_append, ih']

lemma flatten_map_content_nilsep (l : List TextChunk) :
    (l.map (TextChunk.content [])).flatten = (l.flatMap TextChunk.pieces).flatten := by
  induction l with
  | nil => rfl
  | cons c l ih =>
    rw [List.map_cons, List.flatten_cons, List.flatMap_cons, List.flatten_append, ih]
    have : TextChunk.content [] c = (TextChunk.pieces c).flatten := by
      rw [TextChunk.content, TextChunk.pieces, joinSep_sep_nil]
    rw [this]

lemma totalLen_append_single (sep : Text) (a : List Text) (p : Text) :
    totalLen sep (a ++ [p]) ≤ totalLen sep a + sep.length + p.length := by
  cases a with
  | nil => simp [totalLen, joinSep]
  | cons x xs =>
    rw [totalLen, joinSep_append sep (x :: xs) [p] (List.cons_ne_nil x xs) (by simp)]
    simp only [List.length_append, totalLen, joinSep]
    omega

lemma content_length_eq_totalLen (sep : Text) (c : TextChunk) :
    (TextChunk.content sep c).length = totalLen sep (c.seed ++ c.body) := rfl

lemma mem_pipeline_of (seps : List Text) (cs ov : Nat) (keep : Bool) (t : Text)
    {c : TextChunk} (hc : c ∈ pipeline seps cs ov keep t) :
    c ∈ mergeAux (mergeSep seps keep t) cs ov ⟨[], []⟩
        (splitText cs keep (resolveSeparators seps) t)
      ∧ TextChunk.content (mergeSep seps keep t) c ≠ [] := by
  rw [pipeline, mergeIntoChunks] at hc
  have h1 := List.mem_of_mem_filter hc
  have h2 := (List.mem_filter.mp hc).2
  refine ⟨h1, ?_⟩
  intro hempty
  rw [Bool.not_eq_true'] at h2
  rw [hempty] at h2
  simp at h2

lemma mem_pipelineContents_ne_nil (seps : List Text) (cs ov : Nat) (keep : Bool) (t t' : Text)
    (h : t' ∈ pipelineContents seps cs ov keep t) : t' ≠ [] := by
  rw [pipelineContents] at h
  obtain ⟨c, hc, rfl⟩ := List.mem_map.mp h
  exact (mem_pipeline_of seps cs ov keep t hc).2

lemma pipeline_nil_text (seps : List Text) (cs ov : Nat) (keep : Bool) :
    pipeline seps cs ov keep [] = [] := by
  rw [pipeline, splitText_nil_text, mergeIntoChunks, mergeAux]
  simp

lemma mergeSep_keep (seps : List Text) (t : Text) : mergeSep seps true t = [] := rfl

lemma mergeSep_drop (seps : List Text) (t : Text) :
    mergeSep seps false t = (chooseSep (resolveSeparators seps) t).1 := rfl

lemma pipelineContents_small (seps : List Text) (cs : Nat) (keep : Bool) (t : Text)
    (ht : t ≠ []) (hle : t.length ≤ cs) :
    pipelineContents seps cs 0 keep t = [t] := by
  have hrs : resolveSeparators seps ≠ [] := resolveSeparators_ne_nil seps
  have hlevel := splitText_level cs keep t ht (resolveSeparators seps) hrs
  have hsmall : ∀ p ∈ splitPieces (chooseSep (resolveSeparators seps) t).1 keep t,
      p.length ≤ cs := fun p hp => le_trans (mem_splitPieces_length _ keep hp) hle
  have hsplit : splitText cs keep (resolveSeparators seps) t =
      splitPieces (chooseSep (resolveSeparators seps) t).1 keep t := by
    rw [hlevel, flatMap_emit_of_small cs _ _ hsmall]
  have hne : splitPieces (chooseSep (resolveSeparators seps) t).1 keep t ≠ [] :=
    splitPieces_ne_nil _ keep t ht
  have hjoin : joinSep (mergeSep seps keep t)
      (splitPieces (chooseSep (resolveSeparators seps) t).1 keep t) = t := by
    cases keep with
    | true =>
      rw [mergeSep_keep, joinSep_sep_nil, flatten_splitPieces_keep]
    | false =>
      rw [mergeSep_drop, splitPieces]
      simp only [Bool.false_eq_true, if_false]
      exact joinSep_splitOnSep _ t
  have htot : totalLen (mergeSep seps keep t)
      (splitPieces (chooseSep (resolveSeparators seps) t).1 keep t) = t.length := by
    rw [totalLen, hjoin]
  rw [pipelineContents, pipeline, hsplit, mergeIntoChunks,
    mergeAux_no_flush _ cs 0 _ ⟨[], []⟩ (by simpa [htot] using hle)]
  rw [if_neg (by simpa using hne)]
  have hcontent : TextChunk.content (mergeSep seps keep t)
      (⟨[], [] ++ splitPieces (chooseSep (resolveSeparators seps) t).1 keep t⟩ : TextChunk) = t := by
    rw [TextChunk.content]
    simpa using hjoin
  rw [List.filter_cons, if_pos ?hkeep]
  case hkeep =>
    rw [hcontent]
    simp [List.isEmpty_iff, ht]
  rw [List.filter_nil, List.map_cons, List.map_nil, hcontent]

/-! Facts about the document wrapper. -/

lemma range'_append_one (s m n : Nat) :
    List.range' s m ++ List.range' (s + m) n = List.range' s (m + n) := by
  have h := List.range'_append s m n 1
  rw [Nat.one_mul] at h
  rw [Nat.add_comm m n]
  exact h

lemma getD_set_ne {α : Type} (l : List α) (i j : Nat) (h : j ≠ i) (m d : α) :
    (l.set i m).getD j d = l.getD j d := by
  simp [List.getD, List.getElem?_set_ne (Ne.symm h)]

lemma getD_const_map {α β : Type} (m : β) (l : List α) :
    ∀ (k : Nat), k < l.length → ∀ d : β, (l.map (fun _ => m)).getD k d = m := by
  induction l with
  | nil => intro k hk; simp at hk
  | cons x xs ih =>
    intro k hk d
    cases k with
    | zero => rfl
    | succ k' =>
      rw [List.map_cons]
      have : (((fun _ => m) x :: xs.map (fun _ => m)).getD (k' + 1) d)
          = (xs.map (fun _ => m)).getD k' d := rfl
      rw [this]
      exact ih k' (by simpa using hk) d

lemma allocChunks_cons (m : Metadata) (c : Text) (l : List Text) (st : List Metadata) :
    allocChunks m (c :: l) st =
      ((allocChunks m l (st ++ [m])).1,
        ⟨c, st.length⟩ :: (allocChunks m l (st ++ [m])).2) := by
  rfl

lemma allocChunks_fst (m : Metadata) :
    ∀ (l : List Text) (st : List Metadata),
      (allocChunks m l st).1 = st ++ l.map (fun _ => m) := by
  intro l
  induction l with
  | nil => intro st; simp [allocChunks]
  | cons c l ih =>
    intro st
    rw [allocChunks_cons, ih (st ++ [m])]
    simp

lemma allocChunks_map_pc (m : Metadata) :
    ∀ (l : List Text) (st : List Metadata),
      (allocChunks m l st).2.map DocumentRecord.pageContent = l := by
  intro l
  induction l with
  | nil => intro st; simp [allocChunks]
  | cons c l ih =>
    intro st
    rw [allocChunks_cons, List.map_cons, ih (st ++ [m])]

lemma allocChunks_map_ref (m : Metadata) :
    ∀ (l : List Text) (st : List Metadata),
      (allocChunks m l st).2.map DocumentRecord.metaRef = List.range' st.length l.length := by
  intro l
  induction l with
  | nil => intro st; simp [allocChunks]
  | cons c l ih =>
    intro st
    rw [allocChunks_cons, List.map_cons, ih (st ++ [m]), List.length_cons,
      List.range'_succ st.length l.length 1]
    simp

lemma splitDocuments_cons (seps : List Text) (cs ov : Nat) (keep : Bool)
    (d : DocumentRecord) (ds : List DocumentRecord) (st : List Metadata) :
    splitDocuments seps cs ov keep (d :: ds) st =
      ((splitDocuments seps cs ov keep ds
          (allocChunks (st.getD d.metaRef []) (pipelineContents seps cs ov keep d.pageContent) st).1).1,
        (allocChunks (st.getD d.metaRef []) (pipelineContents seps cs ov keep d.pageContent) st).2
          ++ (splitDocuments seps cs ov keep ds
              (allocChunks (st.getD d.metaRef []) (pipelineContents seps cs ov keep d.pageContent) st).1).2) := by
  rfl

lemma splitDocuments_fst_ext (seps : List Text) (cs ov : Nat) (keep : Bool) :
    ∀ (ds : List DocumentRecord) (st : List Metadata),
      ∃ ext, (splitDocuments seps cs ov keep ds st).1 = st ++ ext := by
  intro ds
  induction ds with
  | nil => intro st; exact ⟨[], by simp [splitDocuments]⟩
  | cons d ds ih =>
    intro st
    rw [splitDocuments_cons]
    obtain ⟨ext, hext⟩ := ih (allocChunks (st.getD d.metaRef [])
      (pipelineContents seps cs ov keep d.pageContent) st).1
    refine ⟨(pipelineContents seps cs ov keep d.pageContent).map
      (fun _ => st.getD d.metaRef []) ++ ext, ?_⟩
    rw [hext, allocChunks_fst]
    simp

lemma splitDocuments_getD_low (seps : List Text) (cs ov : Nat) (keep : Bool)
    (ds : List DocumentRecord) (st : List Metadata) (i : Nat) (hi : i < st.length) :
    (splitDocuments seps cs ov keep ds st).1.getD i [] = st.getD i [] := by
  obtain ⟨ext, hext⟩ := splitDocuments_fst_ext seps cs ov keep ds st
  rw [hext]
  exact List.getD_append st ext [] i hi

lemma splitDocuments_map_pc (seps : List Text) (cs ov : Nat) (keep : Bool) :
    ∀ (ds : List DocumentRecord) (st : List Metadata),
      (splitDocuments seps cs ov keep ds st).2.map DocumentRecord.pageContent =
        ds.flatMap (fun d => pipelineContents seps cs ov keep d.pageContent) := by
  intro ds
  induction ds with
  | nil => intro st; simp [splitDocuments]
  | cons d ds ih =>
    intro st
    rw [splitDocuments_cons, List.map_append, allocChunks_map_pc, ih, List.flatMap_cons]

lemma splitDocuments_map_ref (seps : List Text) (cs ov : Nat) (keep : Bool) :
    ∀ (ds : List DocumentRecord) (st : List Metadata),
      (splitDocuments seps cs ov keep ds st).2.map DocumentRecord.metaRef =
        List.range' st.length
          (ds.flatMap (fun d => pipelineContents seps cs ov keep d.pageContent)).length := by
  intro ds
  induction ds with
  | nil => intro st; simp [splitDocuments]
  | cons d ds ih =>
    intro st
    rw [splitDocuments_cons, List.map_append, allocChunks_map_ref, ih]
    have hlen : (allocChunks (st.getD d.metaRef [])
        (pipelineContents seps cs ov keep d.pageContent) st).1.length =
        st.length + (pipelineContents seps cs ov keep d.pageContent).length := by
      rw [allocChunks_fst]
      simp
    rw [hlen, range'_append_one]
    rw [List.flatMap_cons, List.length_append]

lemma splitDocuments_copy (seps : List Text) (cs ov : Nat) (keep : Bool) :
    ∀ (ds : List DocumentRecord) (st : List Metadata),
      (∀ d ∈ ds, d.metaRef < st.length) →
      ∀ r ∈ (splitDocuments seps cs ov keep ds st).2,
        ∃ d ∈ ds, (splitDocuments seps cs ov keep ds st).1.getD r.metaRef [] = st.getD d.metaRef []
          ∧ r.pageContent ∈ pipelineContents seps cs ov keep d.pageContent := by
  intro ds
  induction ds with
  | nil => intro st _ r hr; simp [splitDocuments] at hr
  | cons d ds ih =>
    intro st hvalid r hr
    rw [splitDocuments_cons] at hr ⊢
    have hst1 : (allocChunks (st.getD d.metaRef [])
        (pipelineContents seps cs ov keep d.pageContent) st).1 =
        st ++ (pipelineContents seps cs ov keep d.pageContent).map (fun _ => st.getD d.metaRef []) :=
      allocChunks_fst _ _ st
    have hst1len : (allocChunks (st.getD d.metaRef [])
        (pipelineContents seps cs ov keep d.pageContent) st).1.length =
        st.length + (pipelineContents seps cs ov keep d.pageContent).length := by
      rw [hst1]; simp
    rcases List.mem_append.mp hr with h1 | h2
    · refine ⟨d, List.mem_cons_self d ds, ?_, ?_⟩
      · have hrefmem : r.metaRef ∈ List.range' st.length
            (pipelineContents seps cs ov keep d.pageContent).length := by
          rw [← allocChunks_map_ref (st.getD d.metaRef [])
            (pipelineContents seps cs ov keep d.pageContent) st]
          exact List.mem_map_of_mem DocumentRecord.metaRef h1
        have hbounds := List.mem_range'_1.mp hrefmem
        have hlow : r.metaRef < (allocChunks (st.getD d.metaRef [])
            (pipelineContents seps cs ov keep d.pageContent) st).1.length := by
          rw [hst1len]; omega
        rw [splitDocuments_getD_low seps cs ov keep ds _ r.metaRef hlow, hst1]
        rw [List.getD_append_right st _ [] r.metaRef hbounds.1]
        exact getD_const_map _ _ _ (by omega) []
      · have := allocChunks_map_pc (st.getD d.metaRef [])
          (pipelineContents seps cs ov keep d.pageContent) st
        rw [← this]
        exact List.mem_map_of_mem DocumentRecord.pageContent h1
    · have hvalid' : ∀ d' ∈ ds, d'.metaRef < (allocChunks (st.getD d.metaRef [])
          (pipelineContents seps cs ov keep d.pageContent) st).1.length := by
        intro d' hd'
        rw [hst1len]
        have := hvalid d' (List.mem_cons_of_mem d hd')
        omega
      obtain ⟨d', hd', hm, hpc⟩ := ih _ hvalid' r h2
      refine ⟨d', List.mem_cons_of_mem d hd', ?_, hpc⟩
      rw [hm, hst1]
      exact List.getD_append st _ [] d'.metaRef (hvalid d' (List.mem_cons_of_mem d hd'))

lemma createDocuments_cons (seps : List Text) (cs ov : Nat) (keep : Bool)
    (t : Text) (ts : List Text) (st : List Metadata) :
    createDocuments seps cs ov keep (t :: ts) st =
      ((createDocuments seps cs ov keep ts
          (allocChunks [] (pipelineContents seps cs ov keep t) st).1).1,
        (allocChunks [] (pipelineContents seps cs ov keep t) st).2
          ++ (createDocuments seps cs ov keep ts
              (allocChunks [] (pipelineContents seps cs ov keep t) st).1).2) := by
  rfl

lemma createDocuments_map_pc (seps : List Text) (cs ov : Nat) (keep : Bool) :
    ∀ (ts : List Text) (st : List Metadata),
      (createDocuments seps cs ov keep ts st).2.map DocumentRecord.pageContent =
        ts.flatMap (fun t => pipelineContents seps cs ov keep t) := by
  intro ts
  induction ts with
  | nil => intro st; simp [createDocuments]
  | cons t ts ih =>
    intro st
    rw [createDocuments_cons, List.map_append, allocChunks_map_pc, ih, List.flatMap_cons]

lemma wrapTexts_cons (t : Text) (ts : List Text) (st : List Metadata) :
    wrapTexts (t :: ts) st =
      ((wrapTexts ts (st ++ [([] : Metadata)])).1,
        ⟨t, st.length⟩ :: (wrapTexts ts (st ++ [([] : Metadata)])).2) := by
  rfl

lemma wrapTexts_map_pc : ∀ (ts : List Text) (st : List Metadata),
    (wrapTexts ts st).2.map DocumentRecord.pageContent = ts := by
  intro ts
  induction ts with
  | nil => intro st; simp [wrapTexts]
  | cons t ts ih =>
    intro st
    rw [wrapTexts_cons, List.map_cons, ih]

lemma flatMap_pc_eq {f : Text → List Text} :
    ∀ (ds : List DocumentRecord),
      ds.flatMap (fun d => f d.pageContent) = (ds.map DocumentRecord.pageContent).flatMap f := by
  intro ds
  induction ds with
  | nil => rfl
  | cons d ds ih => rw [List.flatMap_cons, List.map_cons, List.flatMap_cons, ih]

/-! The claims. -/

/-- C1 (amended): every chunk produced by the split-then-merge pipeline has
content length at most `chunkSize`, except (a) chunks that are a single
atomic piece of the split phase already larger than `chunkSize`, which are
emitted unmodified and never raise an error, and (b) — the amendment — when
`chunkOverlap > 0`, chunks consisting of an overlap seed plus one following
piece, whose length may reach `chunkOverlap` plus the separator length plus
`chunkSize`, because the merger seeds the new window only under the
`chunkOverlap` budget before appending the next piece. -/
theorem claim1_size_bound (seps : List Text) (cs ov : Nat) (keep : Bool) (t : Text) :
    ∀ c ∈ pipeline seps cs ov keep t,
      (TextChunk.content (mergeSep seps keep t) c).length ≤ cs
      ∨ (∃ p, c.seed = [] ∧ c.body = [p]
          ∧ TextChunk.content (mergeSep seps keep t) c = p ∧ cs < p.length
          ∧ p ∈ splitText cs keep (resolveSeparators seps) t)
      ∨ (0 < ov ∧ (TextChunk.content (mergeSep seps keep t) c).length
            ≤ ov + (mergeSep seps keep t).length + cs) := by
  intro c hc
  obtain ⟨hmem, -⟩ := mem_pipeline_of seps cs ov keep t hc
  have hb := mergeAux_chunk_bound (mergeSep seps keep t) cs ov
    (splitText cs keep (resolveSeparators seps) t) ⟨[], []⟩
    (Or.inl (by simp [totalLen_nil])) c hmem
  have hsf := mergeAux_seed_facts (mergeSep seps keep t) cs ov
    (splitText cs keep (resolveSeparators seps) t) ⟨[], []⟩
    (by simp [totalLen_nil]) (fun _ => rfl) c hmem
  rcases hb with h | h | h
  · left
    rw [content_length_eq_totalLen]
    exact h
  · obtain ⟨p, hs, hbod, hlt, hmemp⟩ := h
    right; left
    refine ⟨p, hs, hbod, ?_, hlt, hmemp⟩
    rw [TextChunk.content, hs, hbod]
    simp [joinSep]
  · obtain ⟨hseed_le, p, hbod, hple⟩ := h
    by_cases hov : ov = 0
    · left
      have hseed : c.seed = [] := hsf.2 hov
      rw [TextChunk.content, hseed, hbod]
      simpa [joinSep] using hple
    · right; right
      refine ⟨by omega, ?_⟩
      rw [content_length_eq_totalLen, hbod]
      have h1 := totalLen_append_single (mergeSep seps keep t) c.seed p
      have h2 : totalLen (mergeSep seps keep t) c.seed ≤ ov := hseed_le
      omega

/-- C1 counterexample: under the valid configuration `chunkSize = 5`,
`chunkOverlap = 4`, default separators, the input "aaa bbb ccc" produces a
chunk ("aaa bbb", 7 characters) that exceeds `chunkSize` yet is not a single
atomic piece of the split phase, contradicting the claim that only single
atomic fallback pieces may be oversized. -/
theorem claim1_counterexample :
    ∃ c ∈ pipeline [] 5 4 false ("aaa bbb ccc".toList),
      5 < (TextChunk.content (mergeSep [] false ("aaa bbb ccc".toList)) c).length
      ∧ TextChunk.content (mergeSep [] false ("aaa bbb ccc".toList)) c
          ∉ splitText 5 false (resolveSeparators []) ("aaa bbb ccc".toList) := by
  decide

/-- C1 witness: the amended size bound evaluated on a concrete run. -/
theorem claim1_witness :
    ((⟨[], ["aaa".toList]⟩ : TextChunk) ∈ pipeline [] 5 4 false ("aaa bbb ccc".toList))
    ∧ ((TextChunk.content (mergeSep [] false ("aaa bbb ccc".toList))
          (⟨[], ["aaa".toList]⟩ : TextChunk)).length ≤ 5
      ∨ (∃ p, (⟨[], ["aaa".toList]⟩ : TextChunk).seed = []
          ∧ (⟨[], ["aaa".toList]⟩ : TextChunk).body = [p]
          ∧ TextChunk.content (mergeSep [] false ("aaa bbb ccc".toList))
              (⟨[], ["aaa".toList]⟩ : TextChunk) = p
          ∧ 5 < p.length
          ∧ p ∈ splitText 5 false (resolveSeparators []) ("aaa bbb ccc".toList))
      ∨ (0 < 4 ∧ (TextChunk.content (mergeSep [] false ("aaa bbb ccc".toList))
            (⟨[], ["aaa".toList]⟩ : TextChunk)).length
              ≤ 4 + (mergeSep [] false ("aaa bbb ccc".toList)).length + 5)) :=
  ⟨by decide,
    claim1_size_bound [] 5 4 false ("aaa bbb ccc".toList) ⟨[], ["aaa".toList]⟩ (by decide)⟩

/-- C2 (amended): with `chunkOverlap = 0` the concatenation of the chunk
contents reconstructs the input exactly when `keepSeparator = true` (the
separators are reattached to the pieces, so the merger reinserts nothing and
no character is lost); with `keepSeparator = false` the splitter discards
separator occurrences, so reconstruction fails in general (see the
counterexample). -/
theorem claim2_coverage_keep (seps : List Text) (cs : Nat) (t : Text) :
    (pipelineContents seps cs 0 true t).flatten = t := by
  rw [pipelineContents, pipeline, mergeIntoChunks, mergeSep_keep]
  rw [flatten_map_filter_eq _ _ _ ?hdrop]
  case hdrop =>
    intro c _ hq
    simp only [Bool.not_eq_false'] at hq
    exact List.isEmpty_iff.mp hq
  rw [flatten_map_content_nilsep, mergeAux_pieces_flat]
  simp only [List.append_nil, List.nil_append]
  exact flatten_splitText_keep cs (resolveSeparators seps) t

/-- C2 counterexample: with the default `keepSeparator = false`, a valid
configuration (`chunkSize = 3`, `chunkOverlap = 0`) and input "a b", the
space separator is discarded by the splitter; concatenating the chunk
contents after stripping the merger-reinserted separators (i.e. the raw
pieces of each chunk) yields "ab", not the original input. -/
theorem claim2_counterexample :
    ((pipeline [] 3 0 false ("a b".toList)).map
        (fun c => (c.seed ++ c.body).flatten)).flatten = "ab".toList
    ∧ ((pipeline [] 3 0 false ("a b".toList)).map
        (fun c => (c.seed ++ c.body).flatten)).flatten ≠ "a b".toList := by
  decide

/-- C3: in the merger's output, the overlap between adjacent chunks — the
seed of the later chunk — is a suffix of the earlier chunk's content and a
prefix (as join of the seed pieces) of the later chunk's content, with
length at most `chunkOverlap`; the seed is the longest admissible suffix of
the just-flushed window, and with `chunkOverlap = 0` every window starts
empty. -/
theorem claim3_overlap_bound (sep : Text) (cs ov : Nat) (ps : List Text) :
    List.Chain' (fun c₁ c₂ => joinSep sep c₂.seed <:+ TextChunk.content sep c₁)
      (mergeIntoChunks sep cs ov ps)
    ∧ (∀ c ∈ mergeIntoChunks sep cs ov ps,
        (joinSep sep c.seed).length ≤ ov
        ∧ joinSep sep c.seed <+: TextChunk.content sep c
        ∧ (ov = 0 → c.seed = []))
    ∧ (∀ (l s : List Text), 0 < ov → s <:+ l → totalLen sep s ≤ ov →
        s <:+ seedWindow sep ov l) := by
  refine ⟨?_, ?_, ?_⟩
  · rw [mergeIntoChunks]
    apply chain'_filter_transfer _ _ ?_ _ (mergeAux_chain sep cs ov ps ⟨[], []⟩)
    intro a b hR hq x
    simp only [Bool.not_eq_false'] at hq
    have ha : TextChunk.content sep a = [] := List.isEmpty_iff.mp hq
    rw [ha] at hR
    have hb : joinSep sep b.seed = [] := List.suffix_nil.mp hR
    rw [hb]
    exact List.nil_suffix
  · intro c hc
    rw [mergeIntoChunks] at hc
    have hmem := List.mem_of_mem_filter hc
    have hsf := mergeAux_seed_facts sep cs ov ps ⟨[], []⟩
      (by simp [totalLen_nil]) (fun _ => rfl) c hmem
    exact ⟨hsf.1, pre_joinSep sep c.seed c.body, hsf.2⟩
  · intro l s hov hs hle
    rw [seedWindow, if_neg (by omega)]
    exact suf_maxOverlapSuffix sep ov l s hs hle

/-- C3 witness: the per-chunk overlap facts evaluated on a concrete merge. -/
theorem claim3_witness :
    ((⟨["aaa".toList], ["bbb".toList]⟩ : TextChunk) ∈
        mergeIntoChunks (" ".toList) 5 4 ["aaa".toList, "bbb".toList, "ccc".toList])
    ∧ ((joinSep (" ".toList) (⟨["aaa".toList], ["bbb".toList]⟩ : TextChunk).seed).length ≤ 4
        ∧ joinSep (" ".toList) (⟨["aaa".toList], ["bbb".toList]⟩ : TextChunk).seed
            <+: TextChunk.content (" ".toList) (⟨["aaa".toList], ["bbb".toList]⟩ : TextChunk)
        ∧ (4 = 0 → (⟨["aaa".toList], ["bbb".toList]⟩ : TextChunk).seed = [])) :=
  ⟨by decide,
    (claim3_overlap_bound (" ".toList) 5 4 ["aaa".toList, "bbb".toList, "ccc".toList]).2.1
      ⟨["aaa".toList], ["bbb".toList]⟩ (by decide)⟩

/-- C4: `splitText` splits at each level with the first separator whose
application yields more than one piece; if none is present the final entry
of the list is used; and the Resolver resolves an empty configured list to
the generic default ordered list "\n\n", "\n", " ", "". -/
theorem claim4_separator_choice (cs : Nat) (keep : Bool) (seps : List Text) (t : Text)
    (hseps : seps ≠ []) (ht : t ≠ []) :
    (∃ pre, seps = pre ++ (chooseSep seps t).1 :: (chooseSep seps t).2
      ∧ (∀ s ∈ pre, ¬ 1 < (splitOnSep s t).length)
      ∧ (1 < (splitOnSep (chooseSep seps t).1 t).length ∨ (chooseSep seps t).2 = []))
    ∧ splitText cs keep seps t =
        (splitPieces (chooseSep seps t).1 keep t).flatMap (fun p =>
          if p.length ≤ cs then [p]
          else if (chooseSep seps t).2 = [] then [p]
          else splitText cs keep (chooseSep seps t).2 p)
    ∧ resolveSeparators [] = ["\n\n".toList, "\n".toList, " ".toList, "".toList] :=
  ⟨chooseSep_char t seps hseps, splitText_level cs keep t ht seps hseps, rfl⟩

/-- C4 witness: separator selection evaluated on a concrete input. -/
theorem claim4_witness :
    (defaultSeparators ≠ [] ∧ ("foo bar".toList : Text) ≠ [])
    ∧ ((∃ pre, defaultSeparators =
          pre ++ (chooseSep defaultSeparators ("foo bar".toList)).1
            :: (chooseSep defaultSeparators ("foo bar".toList)).2
        ∧ (∀ s ∈ pre, ¬ 1 < (splitOnSep s ("foo bar".toList)).length)
        ∧ (1 < (splitOnSep (chooseSep defaultSeparators ("foo bar".toList)).1
              ("foo bar".toList)).length
            ∨ (chooseSep defaultSeparators ("foo bar".toList)).2 = []))
      ∧ splitText 3 false defaultSeparators ("foo bar".toList) =
          (splitPieces (chooseSep defaultSeparators ("foo bar".toList)).1 false
            ("foo bar".toList)).flatMap (fun p =>
              if p.length ≤ 3 then [p]
              else if (chooseSep defaultSeparators ("foo bar".toList)).2 = [] then [p]
              else splitText 3 false (chooseSep defaultSeparators ("foo bar".toList)).2 p)
      ∧ resolveSeparators [] = ["\n\n".toList, "\n".toList, " ".toList, "".toList]) :=
  ⟨⟨by decide, by decide⟩,
    claim4_separator_choice 3 false defaultSeparators ("foo bar".toList) (by decide) (by decide)⟩

/-- C5: the checked entry point raises `InvalidConfig` exactly when
`chunkOverlap >= chunkSize` or `chunkSize <= 0`; the error depends only on
the configuration, never on the text (fail-fast); every valid configuration
yields an `ok` result on every text, and empty input yields an empty chunk
list. -/
theorem claim5_config_errors (cfg : SplitConfig) (t : Text) :
    (splitWithConfig cfg t = .error .invalidConfig
        ↔ (cfg.chunkOverlap ≥ cfg.chunkSize ∨ cfg.chunkSize ≤ 0))
    ∧ (∀ t₂ : Text, splitWithConfig cfg t = .error .invalidConfig →
        splitWithConfig cfg t₂ = .error .invalidConfig)
    ∧ (¬ (cfg.chunkOverlap ≥ cfg.chunkSize ∨ cfg.chunkSize ≤ 0) →
        (∃ chunks, splitWithConfig cfg t = .ok chunks)
        ∧ splitWithConfig cfg [] = Except.ok ([] : List TextChunk)) := by
  by_cases h : cfg.chunkSize ≤ 0 ∨ cfg.chunkOverlap ≥ cfg.chunkSize
  · refine ⟨?_, ?_, ?_⟩
    · rw [splitWithConfig, if_pos h]
      exact ⟨fun _ => by tauto, fun _ => rfl⟩
    · intro t₂ _
      rw [splitWithConfig, if_pos h]
    · intro hcontra
      exact absurd (by tauto) hcontra
  · refine ⟨?_, ?_, ?_⟩
    · rw [splitWithConfig, if_neg h]
      constructor
      · intro hbad
        cases hbad
      · intro hval
        exact absurd (by tauto) h
    · intro t₂ hbad
      rw [splitWithConfig, if_neg h] at hbad
      cases hbad
    · intro _
      refine ⟨⟨_, by rw [splitWithConfig, if_neg h]⟩, ?_⟩
      rw [splitWithConfig, if_neg h, pipeline_nil_text]

/-- C5 witness: a valid configuration evaluated on a concrete text. -/
theorem claim5_witness :
    ¬ ((⟨3, 1, [], false⟩ : SplitConfig).chunkOverlap ≥ (⟨3, 1, [], false⟩ : SplitConfig).chunkSize
        ∨ (⟨3, 1, [], false⟩ : SplitConfig).chunkSize ≤ 0)
    ∧ ((∃ chunks, splitWithConfig ⟨3, 1, [], false⟩ ("ab".toList) = .ok chunks)
      ∧ splitWithConfig ⟨3, 1, [], false⟩ [] = Except.ok ([] : List TextChunk)) :=
  ⟨by decide, (claim5_config_errors ⟨3, 1, [], false⟩ ("ab".toList)).2.2 (by decide)⟩

/-- C6: `splitText` terminates on every input: with any recursion budget
exceeding the separator-list length, the fuelled splitter never exhausts its
budget and returns exactly the value of `splitText` — each recursive call
uses only the separators after the one just used, and the final entry
always succeeds. -/
theorem claim6_termination (cs : Nat) (keep : Bool) (fuel : Nat) (seps : List Text) (t : Text)
    (h : seps.length < fuel) :
    splitTextFuel cs keep fuel seps t = some (splitText cs keep seps t) :=
  splitTextFuel_eq_splitText cs keep fuel seps t h

/-- C6 witness: termination within the separator-list bound on a concrete
adversarial text with no separators at all. -/
theorem claim6_witness :
    defaultSeparators.length < 5
    ∧ splitTextFuel 3 false 5 defaultSeparators ("aaaabbbb".toList)
        = some (splitText 3 false defaultSeparators ("aaaabbbb".toList)) :=
  ⟨by decide, claim6_termination 3 false 5 defaultSeparators ("aaaabbbb".toList) (by decide)⟩

/-- C7: the concrete scenario — input "foo bar baz 123", generic separators,
`chunkSize = 3`, `chunkOverlap = 0`, default `keepSeparator = false` —
produces exactly the chunks "foo", "bar", "baz", "123" with the space
separator dropped. -/
theorem claim7_concrete :
    pipelineContents defaultSeparators 3 0 false ("foo bar baz 123".toList)
      = ["foo".toList, "bar".toList, "baz".toList, "123".toList] := by
  decide

/-- C8 (amended): re-running the pipeline, with the same configuration and
`chunkOverlap = 0`, on the content of any produced chunk whose length is at
most `chunkSize` yields that content back as a single chunk; chunks that
exceed `chunkSize` (possible per C1) can split further, so the restriction
to within-bound chunks is necessary (see the counterexample). -/
theorem claim8_remerge (seps : List Text) (cs ov : Nat) (keep : Bool) (t t' : Text)
    (hmem : t' ∈ pipelineContents seps cs ov keep t) (hle : t'.length ≤ cs) :
    pipelineContents seps cs 0 keep t' = [t'] :=
  pipelineContents_small seps cs keep t'
    (mem_pipelineContents_ne_nil seps cs ov keep t t' hmem) hle

/-- C8 counterexample: the oversized chunk "aaa bbb" produced by the valid
configuration `chunkSize = 5`, `chunkOverlap = 4` on "aaa bbb ccc" splits
into two chunks when re-run with `chunkOverlap = 0`, refuting the claim
that every produced chunk re-merges to a single chunk. -/
theorem claim8_counterexample :
    "aaa bbb".toList ∈ pipelineContents [] 5 4 false ("aaa bbb ccc".toList)
    ∧ pipelineContents [] 5 0 false ("aaa bbb".toList)
        = ["aaa".toList, "bbb".toList] := by
  decide

/-- C8 witness: idempotent re-merge of a within-bound chunk. -/
theorem claim8_witness :
    ("foo bar".toList ∈ pipelineContents [] 10 1 false ("foo bar".toList)
      ∧ ("foo bar".toList : Text).length ≤ 10)
    ∧ pipelineContents [] 10 0 false ("foo bar".toList) = ["foo bar".toList] :=
  ⟨⟨by decide, by decide⟩,
    claim8_remerge [] 10 1 false ("foo bar".toList) ("foo bar".toList) (by decide) (by decide)⟩

/-- C9: `splitDocuments` wraps every chunk of every document as a new record
whose `pageContent` is the chunk's content and whose metadata is a freshly
allocated copy of the source document's metadata: the output records'
metadata references are pairwise distinct and disjoint from all pre-existing
(source) references, the copies equal the source metadata, the source store
entries are untouched, and mutating the metadata of one output record
changes neither any source document's metadata nor any other output
record's. -/
theorem claim9_metadata_copy (seps : List Text) (cs ov : Nat) (keep : Bool)
    (ds : List DocumentRecord) (st : List Metadata)
    (hvalid : ∀ d ∈ ds, d.metaRef < st.length) :
    ((splitDocuments seps cs ov keep ds st).2.map DocumentRecord.pageContent
        = ds.flatMap (fun d => pipelineContents seps cs ov keep d.pageContent))
    ∧ ((splitDocuments seps cs ov keep ds st).2.map DocumentRecord.metaRef).Nodup
    ∧ (∀ r ∈ (splitDocuments seps cs ov keep ds st).2, st.length ≤ r.metaRef)
    ∧ (∀ r ∈ (splitDocuments seps cs ov keep ds st).2,
        ∃ d ∈ ds, (splitDocuments seps cs ov keep ds st).1.getD r.metaRef []
            = st.getD d.metaRef []
          ∧ r.pageContent ∈ pipelineContents seps cs ov keep d.pageContent)
    ∧ (∀ i < st.length, (splitDocuments seps cs ov keep ds st).1.getD i [] = st.getD i [])
    ∧ (∀ r ∈ (splitDocuments seps cs ov keep ds st).2, ∀ m : Metadata,
        (∀ d ∈ ds,
          ((splitDocuments seps cs ov keep ds st).1.set r.metaRef m).getD d.metaRef []
            = (splitDocuments seps cs ov keep ds st).1.getD d.metaRef [])
        ∧ (∀ r' ∈ (splitDocuments seps cs ov keep ds st).2, r' ≠ r →
            ((splitDocuments seps cs ov keep ds st).1.set r.metaRef m).getD r'.metaRef []
              = (splitDocuments seps cs ov keep ds st).1.getD r'.metaRef [])) := by
  have href := splitDocuments_map_ref seps cs ov keep ds st
  have hnodup : ((splitDocuments seps cs ov keep ds st).2.map DocumentRecord.metaRef).Nodup := by
    rw [href]
    exact List.nodup_range' _ _ 1 (by omega)
  have hlow : ∀ r ∈ (splitDocuments seps cs ov keep ds st).2, st.length ≤ r.metaRef := by
    intro r hr
    have hm : r.metaRef ∈ (splitDocuments seps cs ov keep ds st).2.map DocumentRecord.metaRef :=
      List.mem_map_of_mem DocumentRecord.metaRef hr
    rw [href] at hm
    exact (List.mem_range'_1.mp hm).1
  refine ⟨splitDocuments_map_pc seps cs ov keep ds st, hnodup, hlow,
    splitDocuments_copy seps cs ov keep ds st hvalid,
    fun i hi => splitDocuments_getD_low seps cs ov keep ds st i hi, ?_⟩
  intro r hr m
  constructor
  · intro d hd
    refine getD_set_ne _ _ _ ?_ m []
    have h1 := hvalid d hd
    have h2 := hlow r hr
    omega
  · intro r' hr' hne
    refine getD_set_ne _ _ _ ?_ m []
    intro heq
    exact hne (List.inj_on_of_nodup_map hnodup hr' hr heq)

/-- C9 witness: the chunked records of a concrete document carry its
contents. -/
theorem claim9_witness :
    (∀ d ∈ [(⟨"foo bar".toList, 0⟩ : DocumentRecord)],
      d.metaRef < [[("k", "v")]].length)
    ∧ ((splitDocuments [] 3 0 false [(⟨"foo bar".toList, 0⟩ : DocumentRecord)]
          [[("k", "v")]]).2.map DocumentRecord.pageContent
        = [(⟨"foo bar".toList, 0⟩ : DocumentRecord)].flatMap
            (fun d => pipelineContents [] 3 0 false d.pageContent)) :=
  ⟨by decide,
    (claim9_metadata_copy [] 3 0 false [(⟨"foo bar".toList, 0⟩ : DocumentRecord)]
      [[("k", "v")]] (by decide)).1⟩

/-- C10: `createDocuments` on raw texts is equivalent to `splitDocuments` on
those texts wrapped as documents with freshly allocated empty metadata —
the output `pageContent` sequences of the two entry points coincide. -/
theorem claim10_create_equals_split (seps : List Text) (cs ov : Nat) (keep : Bool)
    (ts : List Text) (st : List Metadata) :
    (createDocuments seps cs ov keep ts st).2.map DocumentRecord.pageContent
      = (splitDocuments seps cs ov keep (wrapTexts ts st).2 (wrapTexts ts st).1).2.map
          DocumentRecord.pageContent := by
  rw [createDocuments_map_pc, splitDocuments_map_pc, flatMap_pc_eq, wrapTexts_map_pc]

end TS
